import Mathlib

/-!
Shallow embedding of the rgit object store (src/object.rs, src/repository.rs,
src/leaf.rs) and proofs about its specification claims.

Rust strings are modelled as `List Char` (the sources only manipulate ASCII
data, where byte indices and char indices coincide); byte buffers as
`List Nat` with entries below 256.  Fallible Rust code (`anyhow::bail!`,
`?`) is modelled with `Except RErr`, where `RErr.bail` is a returned error
and `RErr.panicked` marks a Rust panic (`unwrap`, `expect`, `assert!`,
`todo!`, slice-index panics, arithmetic underflow).
-/

set_option maxRecDepth 4000

/-- Outcome of fallible Rust code: a returned `anyhow` error (`bail`) or a
process panic (`panicked`). -/
inductive RErr where
  | bail (msg : String)
  | panicked (msg : String)
deriving DecidableEq, Repr

/-- The NUL character, `char::from(0)` in the source. -/
def NUL : Char := Char.ofNat 0

/-- `str::find` for a character predicate: index of the first match.
Mirrors Rust `s.find(pat)` on an ASCII string. -/
def findIdxGo (p : Char → Bool) : List Char → Option Nat
  | [] => none
  | c :: t => if p c then some 0 else (findIdxGo p t).map (· + 1)

/-- Rust `raw[start..].find(pat).map(|i| i + start)`. -/
def findIdxFrom (raw : List Char) (start : Nat) (p : Char → Bool) : Option Nat :=
  (findIdxGo p (raw.drop start)).map (· + start)

/-- Rust slice `raw[a..b]`: `none` models the out-of-bounds panic
(`a > b` or `b > raw.len()`). -/
def sliceIdx (raw : List Char) (a b : Nat) : Option (List Char) :=
  if a ≤ b ∧ b ≤ raw.length then some ((raw.drop a).take (b - a)) else none

/-- Rust slice `raw[a..]`: `none` models the out-of-bounds panic. -/
def sliceFrom (raw : List Char) (a : Nat) : Option (List Char) :=
  if a ≤ raw.length then some (raw.drop a) else none

/-- Rust `raw.chars().nth(i).unwrap_or_default()` (default char is NUL). -/
def charNth (raw : List Char) (i : Nat) : Char :=
  (raw.get? i).getD NUL

/-- Lowercase hex digit for a value below 16. -/
def hexChar (n : Nat) : Char :=
  Char.ofNat (if n < 10 then 48 + n else 87 + n)

/-- Decimal digits of `n`, fuelled helper. -/
def natDecGo : Nat → Nat → List Char
  | 0, _ => []
  | f + 1, n => if n = 0 then [] else natDecGo f (n / 10) ++ [hexChar (n % 10)]

/-- Rust `format!("{}", n)` for an unsigned integer: decimal, no leading
zeros. -/
def natDec (n : Nat) : List Char :=
  if n = 0 then ['0'] else natDecGo n n

/-- Lowercase hex digits of `n`, fuelled helper. -/
def natHexGo : Nat → Nat → List Char
  | 0, _ => []
  | f + 1, n => if n = 0 then [] else natHexGo f (n / 16) ++ [hexChar (n % 16)]

/-- Rust `format!("{:x}", n)`: lowercase hex, no leading zeros. -/
def natHex (n : Nat) : List Char :=
  if n = 0 then ['0'] else natHexGo n n

/-- Rust `usize::from_str`: optional leading `+`, then one or more ASCII
decimal digits. -/
def parseUsize (l : List Char) : Option Nat :=
  let l' := match l with
    | '+' :: t => t
    | _ => l
  if l' ≠ [] ∧ l'.all (fun c => 48 ≤ c.toNat ∧ c.toNat ≤ 57)
  then some (l'.foldl (fun a c => a * 10 + (c.toNat - 48)) 0)
  else none

/-- UTF-8 bytes of an ASCII string (the inputs handled by the claims are
ASCII, where `char` and byte coincide). -/
def charBytes (s : List Char) : List Nat := s.map Char.toNat

/-! ## SHA-1 (the `crypto::sha1::Sha1` hasher used by `object_write`),
on `Nat` words reduced mod `2 ^ 32`. -/

/-- `2 ^ 32`. -/
def M32 : Nat := 4294967296

/-- Rotate a 32-bit word left by `s`. -/
def rotl (s x : Nat) : Nat :=
  ((x <<< s) ||| (x >>> (32 - s))) % M32

/-- Big-endian byte rendering of `x` on `n` bytes. -/
def beBytes (n x : Nat) : List Nat :=
  (List.range n).map (fun i => (x >>> (8 * (n - 1 - i))) % 256)

/-- SHA-1 padding: `0x80`, zeros to 56 mod 64, then the 64-bit big-endian
bit length. -/
def sha1Pad (ms : List Nat) : List Nat :=
  let l := ms.length
  let k := (119 - l % 64) % 64
  ms ++ 128 :: List.replicate k 0 ++ beBytes 8 (8 * l)

/-- Big-endian word from bytes. -/
def beWord (bs : List Nat) : Nat := bs.foldl (fun a b => a * 256 + b) 0

/-- The 16 message words of one 64-byte block. -/
def blockWords (blk : List Nat) : List Nat :=
  (List.range 16).map (fun i => beWord ((blk.drop (4 * i)).take 4))

/-- Extend the message schedule by `fuel` further words. -/
def extendWords : Nat → List Nat → List Nat
  | 0, ws => ws
  | f + 1, ws =>
    let n := ws.length
    let w := rotl 1 (((ws.getD (n - 3) 0) ^^^ (ws.getD (n - 8) 0)) ^^^
      ((ws.getD (n - 14) 0) ^^^ (ws.getD (n - 16) 0)))
    extendWords f (ws ++ [w])

/-- SHA-1 round function. -/
def sha1F (i b c d : Nat) : Nat :=
  if i < 20 then (b &&& c) ||| ((b ^^^ 4294967295) &&& d)
  else if i < 40 then (b ^^^ c) ^^^ d
  else if i < 60 then ((b &&& c) ||| (b &&& d)) ||| (c &&& d)
  else (b ^^^ c) ^^^ d

/-- SHA-1 round constants. -/
def sha1K (i : Nat) : Nat :=
  if i < 20 then 1518500249
  else if i < 40 then 1859775393
  else if i < 60 then 2400959708
  else 3395469782

/-- Compress one 64-byte block into the running state. -/
def sha1Block (h : Nat × Nat × Nat × Nat × Nat) (blk : List Nat) :
    Nat × Nat × Nat × Nat × Nat :=
  let ws := extendWords 64 (blockWords blk)
  let st := ws.enum.foldl
    (fun (st : Nat × Nat × Nat × Nat × Nat) (iw : Nat × Nat) =>
      let t := (rotl 5 st.1 + sha1F iw.1 st.2.1 st.2.2.1 st.2.2.2.1 +
        st.2.2.2.2 + sha1K iw.1 + iw.2) % M32
      (t, st.1, rotl 30 st.2.1, st.2.2.1, st.2.2.2.1)) h
  (((h.1 + st.1) % M32, (h.2.1 + st.2.1) % M32, (h.2.2.1 + st.2.2.1) % M32,
    (h.2.2.2.1 + st.2.2.2.1) % M32, (h.2.2.2.2 + st.2.2.2.2) % M32))

/-- The five 32-bit SHA-1 state words of a byte message. -/
def sha1Words (ms : List Nat) : Nat × Nat × Nat × Nat × Nat :=
  let padded := sha1Pad ms
  let blks := (List.range (padded.length / 64)).map
    (fun i => (padded.drop (64 * i)).take 64)
  blks.foldl sha1Block (1732584193, 4023233417, 2562383102, 271733878, 3285377520)

/-- One state word as eight lowercase hex characters. -/
def wordHex (x : Nat) : List Char :=
  (List.range 8).map (fun i => hexChar ((x >>> (4 * (7 - i))) % 16))

/-- `Sha1::result_str()`: the 160-bit digest as 40 lowercase hex
characters. -/
def sha1Hex (ms : List Nat) : List Char :=
  let h := sha1Words ms
  wordHex h.1 ++ wordHex h.2.1 ++ wordHex h.2.2.1 ++ wordHex h.2.2.2.1 ++
    wordHex h.2.2.2.2

/-! ## KVLM (key-value list with message), `kvlm_parse` / `kvlm_serialize`
from src/object.rs.  The `IndexMap<String, Vec<String>>` is modelled as an
insertion-ordered association list. -/

/-- Insertion-ordered map from key to value list, the model of
`IndexMap<String, Vec<String>>`. -/
abbrev KVLM : Type := List (List Char × List (List Char))

/-- `IndexMap` lookup (first matching key). -/
def kvLookup (m : KVLM) (k : List Char) : Option (List (List Char)) :=
  match m with
  | [] => none
  | (k', vs) :: t => if k' = k then some vs else kvLookup t k

/-- `dct.entry(key).or_insert(vec![]).push(value)`: append `v` to the list
of `k` in place, or add the entry `(k, [v])` at the end. -/
def pushKV (m : KVLM) (k : List Char) (v : List Char) : KVLM :=
  match m with
  | [] => [(k, [v])]
  | (k', vs) :: t => if k' = k then (k', vs ++ [v]) :: t else (k', vs) :: pushKV t k v

/-- `IndexMap::insert`: replace the value of `k` in place, or add the entry
at the end. -/
def insertKV (m : KVLM) (k : List Char) (vs : List (List Char)) : KVLM :=
  match m with
  | [] => [(k, vs)]
  | (k', vs') :: t => if k' = k then (k, vs) :: t else (k', vs') :: insertKV t k vs

/-- Rust `val.replace("\n", "\n ")` used by `kvlm_serialize` to escape
continuation lines. -/
def escNl : List Char → List Char
  | [] => []
  | c :: t => if c = '\n' then '\n' :: ' ' :: escNl t else c :: escNl t

/-- Rust `slice.replace("\n ", "\n")` used by `kvlm_parse` to drop the
leading space of continuation lines (leftmost, non-overlapping). -/
def unescNl : List Char → List Char
  | [] => []
  | [c] => [c]
  | c :: d :: t =>
    if c = '\n' then
      if d = ' ' then '\n' :: unescNl t
      else '\n' :: unescNl (d :: t)
    else c :: unescNl (d :: t)

/-- One serialized key/value line `<key><SP><escaped value><NL>`. -/
def serLine (k v : List Char) : List Char := k ++ ' ' :: escNl v ++ ['\n']

/-- The key/value section emitted by `kvlm_serialize`’s loop: for each key
in order (skipping the message key `""`), one line per value. -/
def kvlmSerializePairs (m : KVLM) : List Char :=
  (m.map (fun kv => if kv.1 = [] then [] else (kv.2.map (serLine kv.1)).flatten)).flatten

/-- `kvlm_serialize`: the key/value lines, then a blank line, then
`kvlm[""][0]` (the message). Indexing a missing key or an empty value
vector is a Rust panic. -/
def kvlmSerialize (m : KVLM) : Except RErr (List Char) :=
  match kvLookup m [] with
  | none => .error (.panicked "IndexMap: key not found")
  | some [] => .error (.panicked "index out of bounds")
  | some (msg :: _) => .ok (kvlmSerializePairs m ++ '\n' :: msg)

/-- The value-end loop of `kvlm_parse`: repeatedly find the next newline
after `e`; stop before a line that does not begin with a space.  `none`
models fuel exhaustion (the Rust loop always advances). -/
def valueEnd (raw : List Char) : Nat → Nat → Option Nat
  | 0, _ => none
  | f + 1, e =>
    match findIdxFrom raw (e + 1) (· = '\n') with
    | none => some e
    | some v => if charNth raw (v + 1) ≠ ' ' then some v else valueEnd raw f v

/-- Recursive worker of `kvlm_parse`, with explicit fuel for the
recursion depth (the Rust recursion always advances `start`). -/
def kvlmParseGo (raw : List Char) : Nat → Nat → KVLM → Except RErr KVLM
  | 0, _, _ => .error (.panicked "recursion fuel exhausted")
  | f + 1, start, dct =>
    let spc := findIdxFrom raw start (· = ' ')
    let nl := findIdxFrom raw start (· = '\n')
    match spc, nl with
    | none, _ =>
      match sliceFrom raw (start + 1) with
      | none => .error (.panicked "byte index out of bounds")
      | some msg => .ok (insertKV dct [] [msg])
    | some s, some n =>
      if n < s then
        match sliceFrom raw (start + 1) with
        | none => .error (.panicked "byte index out of bounds")
        | some msg => .ok (insertKV dct [] [msg])
      else
        match sliceIdx raw start s with
        | none => .error (.panicked "byte index out of bounds")
        | some key =>
          match valueEnd raw (raw.length + 1) start with
          | none => .error (.panicked "loop fuel exhausted")
          | some e =>
            match sliceIdx raw (s + 1) e with
            | none => .error (.panicked "byte index out of bounds")
            | some vsl => kvlmParseGo raw f (e + 1) (pushKV dct key (unescNl vsl))
    | some s, none =>
      match sliceIdx raw start s with
      | none => .error (.panicked "byte index out of bounds")
      | some key =>
        match valueEnd raw (raw.length + 1) start with
        | none => .error (.panicked "loop fuel exhausted")
        | some e =>
          match sliceIdx raw (s + 1) e with
          | none => .error (.panicked "byte index out of bounds")
          | some vsl => kvlmParseGo raw f (e + 1) (pushKV dct key (unescNl vsl))

/-- `kvlm_parse(raw, None, None)`. -/
def kvlmParse (raw : List Char) : Except RErr KVLM :=
  kvlmParseGo raw (raw.length + 1) 0 []

/-! ## GitObject (src/object.rs). -/

/-- The closed object type tag. -/
inductive GitObjectType where
  | commit
  | tree
  | tag
  | blob
deriving DecidableEq, Repr

/-- `GitObjectType::fmt` / `to_string`: the lowercase on-disk tag. -/
def GitObjectType.fmt : GitObjectType → List Char
  | .commit => "commit".data
  | .tree => "tree".data
  | .tag => "tag".data
  | .blob => "blob".data

/-- `GitObjectType::from_str`. -/
def gitObjectTypeFromStr (s : List Char) : Option GitObjectType :=
  if s = "commit".data then some .commit
  else if s = "tree".data then some .tree
  else if s = "tag".data then some .tag
  else if s = "blob".data then some .blob
  else none

/-- `GitObject` (the `repo` reference is not part of the data model). -/
structure GitObject where
  data : Option (List Char)
  object_type : Option GitObjectType
  kvlm : Option KVLM
deriving DecidableEq

/-- `GitObject::serialize`: dispatch on the type tag.  `Tree` and `Tag`
are `todo!()` panics in the source; a `Commit` without a kvlm yields the
literal string `"kvlm is not set"`; a `Blob` passes `data` through
(`expect` panics when it is absent). -/
def GitObject.serialize (o : GitObject) : Except RErr (List Char) :=
  match o.object_type with
  | none => .error (.panicked "called Option::unwrap on a None value")
  | some .commit =>
    match o.kvlm with
    | some kvlm => kvlmSerialize kvlm
    | none => .ok "kvlm is not set".data
  | some .tree => .error (.panicked "not yet implemented")
  | some .tag => .error (.panicked "not yet implemented")
  | some .blob =>
    match o.data with
    | some d => .ok d
    | none => .error (.panicked "git blob has empty data")

/-- `GitObject::deserialize`: dispatch on the type tag.  `Commit` runs
`kvlm_parse` (`expect` turns its failure into a panic); `Tree` and `Tag`
are `todo!()` panics; `Blob` stores the data. -/
def GitObject.deserialize (o : GitObject) (data : List Char) : Except RErr GitObject :=
  match o.object_type with
  | none => .error (.panicked "called Option::unwrap on a None value")
  | some .commit =>
    match kvlmParse data with
    | .ok m => .ok { o with kvlm := some m }
    | .error _ => .error (.panicked "failed to kvlm parse")
  | some .tree => .error (.panicked "not yet implemented")
  | some .tag => .error (.panicked "not yet implemented")
  | some .blob => .ok { o with data := some data }

/-- `GitObject::new`: construct and, when data is given, deserialize it. -/
def GitObject.new (data : Option (List Char)) (t : Option GitObjectType) :
    Except RErr GitObject :=
  match data with
  | some d => GitObject.deserialize ⟨some d, t, none⟩ d
  | none => .ok ⟨none, t, none⟩

/-- `GitObject::object_read`: parse the frame
`<type-tag><SP><decimal-length><NUL><payload>`.  The missing-space case is
a returned error, the missing-NUL case is an `expect` panic, a bad length
field propagates a parse error, a length mismatch is the
`malformed object: bad length` error, and an unrecognized tag is the
`unsupported object format` error. -/
def GitObject.object_read (raw : List Char) : Except RErr GitObject :=
  match findIdxFrom raw 0 (· = ' ') with
  | none => .error (.bail "space not found")
  | some x =>
    let fmt := raw.take x
    match findIdxGo (· = NUL) (raw.drop x) with
    | none => .error (.panicked "0x00 not found")
    | some y =>
      match parseUsize ((raw.drop (x + 1)).take (y - 1)) with
      | none => .error (.bail "invalid digit found in string")
      | some size =>
        if size ≠ raw.length - y - x - 1 then
          .error (.bail "malformed object: bad length")
        else
          match gitObjectTypeFromStr fmt with
          | none => .error (.bail "unsupported object format")
          | some t => GitObject.new (some (raw.drop (x + y + 1))) (some t)

/-- The framed byte stream `<fmt><SP><decimal-length><NUL><data>` built by
`object_write`. -/
def frameOf (t : GitObjectType) (data : List Char) : List Char :=
  t.fmt ++ ' ' :: natDec data.length ++ NUL :: data

/-- `GitObject::object_write` (digest computation): serialize, frame and
hash the framed bytes; returns the 40-hex-char digest. -/
def GitObject.object_write (o : GitObject) : Except RErr (List Char) :=
  match o.serialize with
  | .error e => .error e
  | .ok data =>
    match o.object_type with
    | none => .error (.panicked "called Option::unwrap on a None value")
    | some t => .ok (sha1Hex (charBytes (frameOf t data)))

/-- The path segments `["objects", &sha[..2], &sha[2..]]` passed to
`repo_file` by `object_write` and `object_read`. -/
def objectPathParts (sha : List Char) : List (List Char) :=
  ["objects".data, sha.take 2, sha.drop 2]

/-- A filesystem operation performed by `object_write` when persisting. -/
inductive FsOp where
  | mkdirAll (path : List (List Char))
  | writeFile (path : List (List Char)) (contents : List Nat)
  | renameFile (src dst : List (List Char))
deriving DecidableEq

/-- `GitObject::object_write` with its filesystem effects as an explicit
trace, abstracting zlib as the function `compress`.  `repo_file(...,
mkdir: true)` creates the shard directory, then `fs::write` stores the
compressed bytes directly at the final object path. -/
def GitObject.object_write_trace (compress : List Char → List Nat)
    (o : GitObject) (actually_write : Bool) :
    Except RErr (List Char × List FsOp) :=
  match o.serialize with
  | .error e => .error e
  | .ok data =>
    match o.object_type with
    | none => .error (.panicked "called Option::unwrap on a None value")
    | some t =>
      let result := frameOf t data
      let sha := sha1Hex (charBytes result)
      if actually_write then
        .ok (sha, [.mkdirAll ["objects".data, sha.take 2],
          .writeFile (objectPathParts sha) (compress result)])
      else
        .ok (sha, [])

/-- Decidable equality for `Except` results, used to evaluate the embedded
functions on concrete inputs. -/
instance {ε α : Type} [DecidableEq ε] [DecidableEq α] : DecidableEq (Except ε α) :=
  fun a b =>
    match a, b with
    | .ok x, .ok y => if h : x = y then .isTrue (by rw [h]) else .isFalse (by simp [h])
    | .error x, .error y => if h : x = y then .isTrue (by rw [h]) else .isFalse (by simp [h])
    | .ok _, .error _ => .isFalse (by simp)
    | .error _, .ok _ => .isFalse (by simp)

/-! ## Tree entries (src/leaf.rs). -/

/-- `GitTreeLeaf`: one decoded tree entry. -/
structure GitTreeLeaf where
  mode : List Char
  path : List Char
  sha : List Char
deriving DecidableEq

/-- `GitTreeLeaf::tree_parse_one`, translated statement by statement:
`x = raw.find(" ")` searches the whole string (not from `start`);
the `assert!` on the mode width is a panic (as is the `usize` underflow
when `start > x`); the NUL is searched inside `mode[x..]` (a slice of the
mode, not of `raw`); the relative index `y` it would return is then used
as an absolute position for the path and digest slices; and the 20 digest
bytes are converted through `isize::from_be_bytes` via a `try_into` to an
8-byte array. -/
def treeParseOne (raw : List Char) (start : Nat) :
    Except RErr (Nat × GitTreeLeaf) :=
  match findIdxGo (· = ' ') raw with
  | none => .error (.bail "space not found")
  | some x =>
    if x < start then .error (.panicked "attempt to subtract with overflow")
    else if ¬(x - start = 5 ∨ x - start = 6) then
      .error (.panicked "assertion failed")
    else
      let mode := (raw.drop start).take (x - start)
      if mode.length < x then .error (.panicked "byte index out of bounds")
      else
        match findIdxGo (· = NUL) (mode.drop x) with
        | none => .error (.bail "0x00 not found")
        | some y =>
          match sliceIdx raw (x + 1) y with
          | none => .error (.panicked "slice index out of range")
          | some path =>
            match sliceIdx raw (y + 1) (y + 21) with
            | none => .error (.panicked "byte index out of bounds")
            | some shaBytes =>
              if shaBytes.length = 8 then
                .ok (y + 21,
                  ⟨mode, path, natHex (beWord (charBytes shaBytes))⟩)
              else .error (.bail "could not convert slice to array")

/-- `tree_parse`: repeatedly parse one entry until the input is exhausted,
with fuel for the loop (the code trusts `tree_parse_one` to advance). -/
def treeParseGo (raw : List Char) : Nat → Nat → List GitTreeLeaf →
    Except RErr (List GitTreeLeaf)
  | 0, _, _ => .error (.panicked "loop fuel exhausted")
  | f + 1, pos, ret =>
    if pos < raw.length then
      match treeParseOne raw pos with
      | .error e => .error e
      | .ok (v, leaf) => treeParseGo raw f v (ret ++ [leaf])
    else .ok ret

/-- `tree_parse(raw)`. -/
def treeParse (raw : List Char) : Except RErr (List GitTreeLeaf) :=
  treeParseGo raw (raw.length + 1) 0 []

/-! ## Repository configuration check (src/repository.rs,
`RGitRepository::init`). -/

/-- The loaded INI configuration: section name to key to optional value,
the black-box output of the `configparser` collaborator. -/
def IniConf : Type := List (List Char × List (List Char × Option (List Char)))

instance : DecidableEq IniConf := by unfold IniConf; infer_instance

/-- Section lookup in a loaded configuration. -/
def iniSection (c : IniConf) (name : List Char) :
    Option (List (List Char × Option (List Char))) :=
  match c with
  | [] => none
  | (n, kv) :: t => if n = name then some kv else iniSection t name

/-- Key lookup inside a section. -/
def iniKey (s : List (List Char × Option (List Char))) (name : List Char) :
    Option (Option (List Char)) :=
  match s with
  | [] => none
  | (n, v) :: t => if n = name then some v else iniKey t name

/-- `RGitRepository::init(path, force)` reduced to its decision logic.
`gitDirIsDir` states that `<path>/.git` exists and is a directory, and
`configFile` is the parsed `config` file when present (`none`: the file
does not exist).  The version guard on `force == false` looks up
`core.repositoryformatversion` with two `unwrap`s -- a missing section or
key is a panic -- and bails only when a value is present and differs from
`"0"`. -/
def rgitInit (gitDirIsDir : Bool) (configFile : Option IniConf)
    (force : Bool) : Except RErr IniConf :=
  if ¬(force ∨ gitDirIsDir) then .error (.bail "not a git repository")
  else
    let conf : IniConf :=
      if gitDirIsDir then (configFile.getD []) else []
    if ¬gitDirIsDir ∧ ¬force then .error (.bail "configuration file is missing")
    else
      if ¬force then
        match iniSection conf "core".data with
        | none => .error (.panicked "called Option::unwrap on a None value")
        | some core =>
          match iniKey core "repositoryformatversion".data with
          | none => .error (.panicked "called Option::unwrap on a None value")
          | some vers =>
            if (match vers with
                | some v => decide (v ≠ "0".data)
                | none => false : Bool) then
              .error (.bail "Unsupported repositoryformatversion")
            else .ok conf
      else .ok conf

/-! ## Repository discovery (src/repository.rs, `repo_find`).  The
filesystem is abstracted to canonical absolute paths (lists of segments,
as produced by `fs::canonicalize`): the parent of a path drops the last
segment and the parent of the root is the root itself, and `gitDirs`
lists the directories that contain a `.git` metadata directory. -/

/-- Worker of `repo_find` with fuel (the Rust recursion terminates because
the canonicalized parent equality check stops at the root). -/
def repoFindGo (gitDirs : List (List (List Char))) (required : Bool) :
    Nat → List (List Char) → Except RErr (Option (List (List Char)))
  | 0, _ => .error (.panicked "recursion fuel exhausted")
  | f + 1, p =>
    if gitDirs.contains p then .ok (some p)
    else
      let parent := p.dropLast
      if parent = p then
        if required then .error (.bail "No git directory") else .ok none
      else repoFindGo gitDirs required f parent

/-- `repo_find(path, required)` over the abstract filesystem (opening the
repository found is modelled as returning its root path). -/
def repoFind (gitDirs : List (List (List Char))) (p : List (List Char))
    (required : Bool) : Except RErr (Option (List (List Char))) :=
  repoFindGo gitDirs required (p.length + 1) p

/-! ## UTF-8 validation (src/repository.rs, `object_read`):
`read_to_string` fails unless the decompressed bytes are valid UTF-8. -/

/-- UTF-8 continuation byte. -/
def contByte (b : Nat) : Bool := 128 ≤ b ∧ b ≤ 191

/-- Strict UTF-8 decoding of a byte stream, as enforced by Rust
`Read::read_to_string` (rejects overlong forms, surrogates and values
beyond `U+10FFFF`); `none` is a decoding failure. -/
def utf8Decode : List Nat → Option (List Char)
  | [] => some []
  | b :: rest =>
    if b < 128 then (utf8Decode rest).map (Char.ofNat b :: ·)
    else if b < 194 then none
    else if b ≤ 223 then
      match rest with
      | c1 :: rest' =>
        if contByte c1 then
          (utf8Decode rest').map (Char.ofNat ((b - 192) * 64 + (c1 - 128)) :: ·)
        else none
      | [] => none
    else if b ≤ 239 then
      match rest with
      | c1 :: c2 :: rest' =>
        let lo1 := if b = 224 then 160 else 128
        let hi1 := if b = 237 then 159 else 191
        if lo1 ≤ c1 ∧ c1 ≤ hi1 ∧ contByte c2 then
          (utf8Decode rest').map
            (Char.ofNat (((b - 224) * 64 + (c1 - 128)) * 64 + (c2 - 128)) :: ·)
        else none
      | _ => none
    else if b ≤ 244 then
      match rest with
      | c1 :: c2 :: c3 :: rest' =>
        let lo1 := if b = 240 then 144 else 128
        let hi1 := if b = 244 then 143 else 191
        if lo1 ≤ c1 ∧ c1 ≤ hi1 ∧ contByte c2 ∧ contByte c3 then
          (utf8Decode rest').map
            (Char.ofNat ((((b - 240) * 64 + (c1 - 128)) * 64 + (c2 - 128)) * 64 +
              (c3 - 128)) :: ·)
        else none
      | _ => none
    else none

/-- `RGitRepository::object_read` after zlib decompression: decode the
decompressed bytes as UTF-8 (`read_to_string`), then parse the frame. -/
def repoObjectRead (bytes : List Nat) : Except RErr GitObject :=
  match utf8Decode bytes with
  | none => .error (.bail "could not read to string")
  | some s => GitObject.object_read s

/-! ## Well-formedness of a KVLM map, for the round-trip law. -/

/-- No-duplicate check on a list of keys. -/
def nodupKeys : List (List Char) → Bool
  | [] => true
  | k :: t => ¬(k ∈ t) ∧ nodupKeys t

/-- A usable non-message key: nonempty, with no space and no newline. -/
def goodKey (k : List Char) : Bool :=
  ¬k.isEmpty ∧ ¬k.contains ' ' ∧ ¬k.contains '\n'

/-- Well-formed key/value section: every key usable and distinct, every
value list nonempty. -/
def wfPairs (pairs : KVLM) : Bool :=
  pairs.all (fun kv => goodKey kv.1 ∧ ¬kv.2.isEmpty) ∧
    nodupKeys (pairs.map Prod.fst)

/-- Well-formed KVLM map: a well-formed key/value section followed by the
distinguished message entry (key `""`, exactly one value) in last
position. -/
def wfKvlm (m : KVLM) : Bool :=
  match m.getLast? with
  | some ([], [_]) => wfPairs m.dropLast
  | _ => false

/-- The key/value lines of a serialized KVLM, one `(key, value)` pair per
line. -/
def serLines (lines : List (List Char × List Char)) : List Char :=
  (lines.map (fun kv => serLine kv.1 kv.2)).flatten

/-- One line per value: the flattened `(key, value)` pairs of a KVLM
section, in emission order. -/
def linesOf (pairs : KVLM) : List (List Char × List Char) :=
  (pairs.map (fun kv => kv.2.map (fun v => (kv.1, v)))).flatten

/-! ## Helper lemmas about the ordered-map operations. -/

/-- Appending through `entry().or_insert().push()` extends the existing
value list of the key. -/
theorem kvLookup_pushKV_found (dct : KVLM) (k v : List Char)
    (old : List (List Char)) (h : kvLookup dct k = some old) :
    kvLookup (pushKV dct k v) k = some (old ++ [v]) := by
  induction dct with
  | nil => simp [kvLookup] at h
  | cons hd t ih =>
    obtain ⟨k', vs⟩ := hd
    by_cases hk : k' = k
    · subst hk
      simp [kvLookup, pushKV] at h ⊢
      simp [h]
    · simp [kvLookup, pushKV, hk] at h ⊢
      exact ih h

/-- `entry().or_insert().push()` leaves every other key unchanged. -/
theorem kvLookup_pushKV_other (dct : KVLM) (k v k' : List Char)
    (h : k' ≠ k) : kvLookup (pushKV dct k v) k' = kvLookup dct k' := by
  have hne : ¬(k = k') := fun h' => h h'.symm
  induction dct with
  | nil => simp [kvLookup, pushKV, hne]
  | cons hd t ih =>
    obtain ⟨k'', vs⟩ := hd
    by_cases hk : k'' = k
    · subst hk
      simp [kvLookup, pushKV, hne]
    · simp [kvLookup, pushKV, hk]
      by_cases hk' : k'' = k'
      · simp [hk']
      · simp [hk', ih]

/-- C1.  The digest returned by `object_write` is the SHA-1 hash of the
framed stream `<type-tag><SP><decimal-length><NUL><payload>`, never of the
payload alone: for every blob payload the digest is the hash of the framed
bytes; for the payload `"hello\n"` the frame is `"blob 6\0hello\n"`, the
digest is its SHA-1 rendered as 40 lowercase hex characters
(`ce0136…464a`), which differs from the hash of `"hello\n"` alone, and the
persisted file path splits the digest as `objects/<first 2>/<rest 38>`. -/
theorem object_write_digest_is_framed_hash :
    (∀ payload : List Char,
      GitObject.object_write ⟨some payload, some .blob, none⟩ =
        .ok (sha1Hex (charBytes (frameOf .blob payload)))) ∧
    frameOf .blob "hello\n".data = "blob 6".data ++ NUL :: "hello\n".data ∧
    GitObject.object_write ⟨some "hello\n".data, some .blob, none⟩ =
      .ok "ce013625030ba8dba906f756967f9e9ca394464a".data ∧
    sha1Hex (charBytes ("blob 6".data ++ NUL :: "hello\n".data)) =
      "ce013625030ba8dba906f756967f9e9ca394464a".data ∧
    sha1Hex (charBytes "hello\n".data) ≠
      "ce013625030ba8dba906f756967f9e9ca394464a".data ∧
    objectPathParts "ce013625030ba8dba906f756967f9e9ca394464a".data =
      ["objects".data, "ce".data, "013625030ba8dba906f756967f9e9ca394464a".data] :=
  ⟨fun _ => rfl, by decide, by decide, by decide, by decide, by decide⟩

/-- C5.  The serialize/deserialize dispatch is not total: `Blob` is an
identity passthrough and `Commit` goes through the KVLM codec, but the
`Tree` and `Tag` arms are `todo!()` stubs that panic instead of invoking a
codec. -/
theorem serialize_dispatch_has_todo_stubs :
    (∀ d, GitObject.serialize ⟨some d, some .blob, none⟩ = .ok d) ∧
    (∀ kvlm, GitObject.serialize ⟨none, some .commit, some kvlm⟩ =
      kvlmSerialize kvlm) ∧
    GitObject.serialize ⟨none, some .tree, none⟩ =
      .error (.panicked "not yet implemented") ∧
    GitObject.serialize ⟨none, some .tag, none⟩ =
      .error (.panicked "not yet implemented") ∧
    (∀ d, GitObject.deserialize ⟨none, some .blob, none⟩ d =
      .ok ⟨some d, some .blob, none⟩) ∧
    (∀ d, GitObject.deserialize ⟨none, some .commit, none⟩ d =
      (match kvlmParse d with
        | .ok m => .ok ⟨none, some .commit, some m⟩
        | .error _ => .error (.panicked "failed to kvlm parse"))) ∧
    (∀ d, GitObject.deserialize ⟨none, some .tree, none⟩ d =
      .error (.panicked "not yet implemented")) ∧
    (∀ d, GitObject.deserialize ⟨none, some .tag, none⟩ d =
      .error (.panicked "not yet implemented")) :=
  ⟨fun _ => rfl, fun _ => rfl, rfl, rfl, fun _ => rfl, fun _ => rfl,
    fun _ => rfl, fun _ => rfl⟩

/-- C6.  The tree-entry parser cannot decode a well-formed entry and does
not report malformed entries as errors: on the well-formed entry
`"100644 a\0" ++ 20 digest bytes` it fails with the `0x00 not found` error
(the NUL is searched inside the mode slice), on a 4-character mode it
panics through `assert!` instead of returning a malformed-tree error, and
`tree_parse` of the well-formed entry fails the same way instead of
consuming the entry. -/
theorem tree_parse_cannot_decode :
    treeParseOne ("100644 a".data ++ NUL :: "xxxxxxxxxxxxxxxxxxxx".data) 0 =
      .error (.bail "0x00 not found") ∧
    treeParseOne ("1006 a".data ++ NUL :: "xxxxxxxxxxxxxxxxxxxx".data) 0 =
      .error (.panicked "assertion failed") ∧
    treeParse ("100644 a".data ++ NUL :: "xxxxxxxxxxxxxxxxxxxx".data) =
      .error (.bail "0x00 not found") := by
  refine ⟨by decide, by decide, by decide⟩

/-- C7 counterexample.  Opening a repository with `force == false` and no
configuration file panics on `unwrap` instead of returning a fatal error,
and a configuration whose `core.repositoryformatversion` key carries no
value succeeds even though the value is not `"0"`. -/
theorem rgitInit_missing_config_panics :
    rgitInit true none false =
      .error (.panicked "called Option::unwrap on a None value") ∧
    (∀ msg, rgitInit true none false ≠ .error (.bail msg)) ∧
    rgitInit true
      (some [("core".data, [("repositoryformatversion".data, none)])]) false =
      .ok [("core".data, [("repositoryformatversion".data, none)])] := by
  refine ⟨by decide, ?_, by decide⟩
  intro msg h
  have h0 : rgitInit true none false =
      Except.error (RErr.panicked "called Option::unwrap on a None value") := by
    decide
  rw [h0] at h
  simp at h

/-- C7 amended.  With `force == false` and the metadata directory present:
a missing configuration file, a missing `core` section and a missing
`repositoryformatversion` key all panic on `unwrap`; a present value other
than `"0"` is the fatal `Unsupported repositoryformatversion` error; the
value `"0"`, or a key present without value, succeeds. -/
theorem rgitInit_version_guard :
    (rgitInit true none false =
      .error (.panicked "called Option::unwrap on a None value")) ∧
    (∀ conf, iniSection conf "core".data = none →
      rgitInit true (some conf) false =
        .error (.panicked "called Option::unwrap on a None value")) ∧
    (∀ conf core, iniSection conf "core".data = some core →
      iniKey core "repositoryformatversion".data = none →
      rgitInit true (some conf) false =
        .error (.panicked "called Option::unwrap on a None value")) ∧
    (∀ conf core v, iniSection conf "core".data = some core →
      iniKey core "repositoryformatversion".data = some (some v) →
      v ≠ "0".data →
      rgitInit true (some conf) false =
        .error (.bail "Unsupported repositoryformatversion")) ∧
    (∀ conf core, iniSection conf "core".data = some core →
      iniKey core "repositoryformatversion".data = some (some "0".data) →
      rgitInit true (some conf) false = .ok conf) ∧
    (∀ conf core, iniSection conf "core".data = some core →
      iniKey core "repositoryformatversion".data = some none →
      rgitInit true (some conf) false = .ok conf) := by
  refine ⟨by decide, ?_, ?_, ?_, ?_, ?_⟩
  · intro conf h
    simp [rgitInit, h]
  · intro conf core h1 h2
    simp [rgitInit, h1, h2]
  · intro conf core v h1 h2 h3
    simp [rgitInit, h1, h2, h3]
  · intro conf core h1 h2
    simp [rgitInit, h1, h2]
  · intro conf core h1 h2
    simp [rgitInit, h1, h2]

/-- Witness for the amended C7 guard at concrete configurations. -/
theorem rgitInit_version_guard_witness :
    rgitInit true
        (some [("core".data, [("repositoryformatversion".data, some "1".data)])])
        false =
      .error (.bail "Unsupported repositoryformatversion") ∧
    rgitInit true
        (some [("core".data, [("repositoryformatversion".data, some "0".data)])])
        false =
      .ok [("core".data, [("repositoryformatversion".data, some "0".data)])] :=
  ⟨rgitInit_version_guard.2.2.2.1
      [("core".data, [("repositoryformatversion".data, some "1".data)])]
      [("repositoryformatversion".data, some "1".data)] "1".data
      (by decide) (by decide) (by decide),
    rgitInit_version_guard.2.2.2.2.1
      [("core".data, [("repositoryformatversion".data, some "0".data)])]
      [("repositoryformatversion".data, some "0".data)]
      (by decide) (by decide)⟩

/-- C9.  Persisting an object is a direct `fs::write` to the final sharded
object path after creating the shard directory: the effect trace contains
no rename and no temporary path, so the write-to-temporary-then-rename
discipline the spec requires is absent. -/
theorem object_write_has_no_rename (compress : List Char → List Nat)
    (payload : List Char) :
    ∃ sha ops,
      GitObject.object_write_trace compress ⟨some payload, some .blob, none⟩
        true = .ok (sha, ops) ∧
      ops = [FsOp.mkdirAll ["objects".data, sha.take 2],
        FsOp.writeFile (objectPathParts sha)
          (compress (frameOf .blob payload))] ∧
      (∀ src dst, FsOp.renameFile src dst ∉ ops) ∧
      FsOp.writeFile (objectPathParts sha) (compress (frameOf .blob payload))
        ∈ ops := by
  refine ⟨_, _, rfl, rfl, ?_, ?_⟩
  · intro src dst
    simp
  · simp

/-- C10.  Object payloads are handled as UTF-8 strings end to end: reading
an object whose decompressed bytes fail UTF-8 decoding yields the
`could not read to string` error, and concretely the byte `0xFF`, the
ill-formed pair `C3 28` and the surrogate encoding `ED A0 80` are all
rejected while the well-formed pair `C3 A9` decodes. -/
theorem object_read_requires_utf8 (bytes : List Nat)
    (h : utf8Decode bytes = none) :
    repoObjectRead bytes = .error (.bail "could not read to string") ∧
    utf8Decode [255] = none ∧
    utf8Decode [195, 40] = none ∧
    utf8Decode [237, 160, 128] = none ∧
    utf8Decode [195, 169] = some [Char.ofNat 233] :=
  ⟨by simp [repoObjectRead, h], by decide, by decide, by decide, by decide⟩

/-- Witness for C10 at the concrete invalid byte `0xFF`. -/
theorem object_read_requires_utf8_witness :
    repoObjectRead [255] = .error (.bail "could not read to string") :=
  (object_read_requires_utf8 [255] (by decide)).1

/-- C4.  Parsing the sample KVLM text yields exactly one entry per key in
insertion order, each with a single-element value list, with the message
preserved verbatim and no duplicated trailing newline; and a repeated key
appends to that key's ordered value list instead of overwriting: both in
the parser (two `parent` lines yield a two-element list) and in the
underlying map update, which appends to the existing list of the key and
leaves every other key unchanged. -/
theorem kvlm_parse_sample (dct : KVLM) (k v : List Char)
    (old : List (List Char)) (h : kvLookup dct k = some old) :
    kvlmParse ("tree 29ff16c9c14e2652b22f8b78bb08a5a07930c147\nparent 206941306e8a8af65b66eaaaea388a7ae24d49a0\nauthor Thibault Polge <thibault@thb.lt> 1527025023 +0200\ncommitter Thibault Polge <thibault@thb.lt> 1527025044 +0200\n\nCreate first draft").data =
      .ok [("tree".data, ["29ff16c9c14e2652b22f8b78bb08a5a07930c147".data]),
        ("parent".data, ["206941306e8a8af65b66eaaaea388a7ae24d49a0".data]),
        ("author".data, ["Thibault Polge <thibault@thb.lt> 1527025023 +0200".data]),
        ("committer".data, ["Thibault Polge <thibault@thb.lt> 1527025044 +0200".data]),
        ([], ["Create first draft".data])] ∧
    kvlmParse ("parent aaa\nparent bbb\n\nmsg").data =
      .ok [("parent".data, ["aaa".data, "bbb".data]), ([], ["msg".data])] ∧
    kvLookup (pushKV dct k v) k = some (old ++ [v]) ∧
    (∀ k', k' ≠ k → kvLookup (pushKV dct k v) k' = kvLookup dct k') :=
  ⟨by decide, by decide, kvLookup_pushKV_found dct k v old h,
    fun k' hk => kvLookup_pushKV_other dct k v k' hk⟩

/-- Witness for C4 at a concrete accumulated map. -/
theorem kvlm_parse_sample_witness :
    kvLookup (pushKV [("parent".data, ["aaa".data])] "parent".data "bbb".data)
      "parent".data = some ["aaa".data, "bbb".data] :=
  (kvlm_parse_sample [("parent".data, ["aaa".data])] "parent".data "bbb".data
    ["aaa".data] (by decide)).2.2.1

/-! ## Frame-parsing lemmas (C2). -/

/-- Finding a character past a prefix that does not contain it. -/
theorem findIdxGo_eq_append (a : Char) (l r : List Char)
    (h : ∀ c ∈ l, c ≠ a) :
    findIdxGo (· = a) (l ++ r) = (findIdxGo (· = a) r).map (· + l.length) := by
  induction l with
  | nil =>
    cases hv : findIdxGo (· = a) r <;> simp [hv]
  | cons c t ih =>
    have hc : ¬(c = a) := h c (by simp)
    rw [List.cons_append]
    simp only [findIdxGo, decide_eq_false hc, if_neg, Bool.false_eq_true,
      not_false_eq_true]
    rw [ih (fun c' hc' => h c' (by simp [hc']))]
    cases hv : findIdxGo (· = a) r <;> simp [hv, Nat.add_assoc]

/-- C2.  `object_read` rejects every frame whose declared decimal length
differs from the actual payload length with the `malformed object` error
(never returning a truncated or extended payload), rejects an unparsable
length field, and rejects an unrecognized type tag. -/
theorem object_read_rejects_bad_frames (tag lf payload : List Char)
    (htag : ∀ c ∈ tag, c ≠ ' ' ∧ c ≠ NUL)
    (hlf : ∀ c ∈ lf, c ≠ ' ' ∧ c ≠ NUL) :
    (parseUsize lf = none →
      GitObject.object_read (tag ++ (' ' :: (lf ++ (NUL :: payload)))) =
        .error (.bail "invalid digit found in string")) ∧
    (∀ n, parseUsize lf = some n → n ≠ payload.length →
      GitObject.object_read (tag ++ (' ' :: (lf ++ (NUL :: payload)))) =
        .error (.bail "malformed object: bad length")) ∧
    (parseUsize lf = some payload.length → gitObjectTypeFromStr tag = none →
      GitObject.object_read (tag ++ (' ' :: (lf ++ (NUL :: payload)))) =
        .error (.bail "unsupported object format")) := by
  have hx : findIdxFrom (tag ++ (' ' :: (lf ++ (NUL :: payload)))) 0 (· = ' ') =
      some tag.length := by
    unfold findIdxFrom
    rw [List.drop_zero,
      findIdxGo_eq_append ' ' tag (' ' :: (lf ++ (NUL :: payload)))
        (fun c hc => (htag c hc).1)]
    simp [findIdxGo]
  have hdx : (tag ++ (' ' :: (lf ++ (NUL :: payload)))).drop tag.length =
      ' ' :: (lf ++ (NUL :: payload)) := by
    simp
  have hnul : findIdxGo (· = NUL)
      ((tag ++ (' ' :: (lf ++ (NUL :: payload)))).drop tag.length) =
      some (lf.length + 1) := by
    rw [hdx, ← List.cons_append,
      findIdxGo_eq_append NUL (' ' :: lf) (NUL :: payload)
        (by
          intro c hc
          rcases List.mem_cons.1 hc with h | h
          · rw [h]; decide
          · exact (hlf c h).2)]
    simp [findIdxGo]
  have hdx1 : (tag ++ (' ' :: (lf ++ (NUL :: payload)))).drop (tag.length + 1) =
      lf ++ (NUL :: payload) := by
    have h2 : tag ++ (' ' :: (lf ++ (NUL :: payload))) =
        (tag ++ [' ']) ++ (lf ++ (NUL :: payload)) := by simp
    have h3 : tag.length + 1 = (tag ++ [' ']).length := by simp
    rw [h2, h3, List.drop_left]
  have hsz : ((tag ++ (' ' :: (lf ++ (NUL :: payload)))).drop
      (tag.length + 1)).take (lf.length + 1 - 1) = lf := by
    rw [hdx1]
    simp
  have hlen : (tag ++ (' ' :: (lf ++ (NUL :: payload)))).length =
      tag.length + 1 + lf.length + 1 + payload.length := by
    simp
    omega
  have hfmt : (tag ++ (' ' :: (lf ++ (NUL :: payload)))).take tag.length = tag := by
    simp
  refine ⟨?_, ?_, ?_⟩
  · intro hp
    unfold GitObject.object_read
    simp only [hx, hnul, hfmt, hsz, hp]
  · intro n hp hne
    unfold GitObject.object_read
    simp only [hx, hnul, hfmt, hsz, hp]
    have hne' : n ≠ (tag ++ (' ' :: (lf ++ (NUL :: payload)))).length -
        (lf.length + 1) - tag.length - 1 := by
      omega
    simp [hne']
    intro hcontra
    exact absurd (show n = payload.length by omega) hne
  · intro hp hfmt'
    unfold GitObject.object_read
    simp only [hx, hnul, hfmt, hsz, hp]
    have heq : ¬(payload.length ≠ (tag ++ (' ' :: (lf ++ (NUL :: payload)))).length -
        (lf.length + 1) - tag.length - 1) := by
      omega
    simp [heq, hfmt']
    omega

/-- Witness for C2: the frame `"blob 7\0hello\n"` declares length 7 for a
6-byte payload and is rejected. -/
theorem object_read_rejects_bad_frames_witness :
    GitObject.object_read ("blob".data ++ (' ' :: ("7".data ++ (NUL :: "hello\n".data)))) =
      .error (.bail "malformed object: bad length") :=
  (object_read_rejects_bad_frames "blob".data "7".data "hello\n".data
    (by decide) (by decide)).2.1 7 (by decide) (by decide)

/-! ## Repository-discovery lemmas (C8). -/

/-- One unfolding step of the fuelled `repo_find` worker. -/
theorem repoFindGo_succ (gd : List (List (List Char))) (req : Bool)
    (f : Nat) (p : List (List Char)) :
    repoFindGo gd req (f + 1) p =
      if gd.contains p then Except.ok (some p)
      else if p.dropLast = p then
        (if req then Except.error (RErr.bail "No git directory")
          else Except.ok none)
      else repoFindGo gd req f p.dropLast := rfl

/-- The fuelled `repo_find` worker is insensitive to the fuel as soon as
the fuel exceeds the path depth: the ascent terminates. -/
theorem repoFindGo_fuel_invariant (gd : List (List (List Char))) (req : Bool) :
    ∀ n p f₁ f₂, p.length ≤ n → p.length < f₁ → p.length < f₂ →
      repoFindGo gd req f₁ p = repoFindGo gd req f₂ p := by
  intro n
  induction n with
  | zero =>
    intro p f₁ f₂ hn h1 h2
    have hp : p = [] := List.length_eq_zero.1 (Nat.le_zero.1 hn)
    subst hp
    obtain ⟨a, rfl⟩ := Nat.exists_eq_succ_of_ne_zero (Nat.pos_iff_ne_zero.1 h1)
    obtain ⟨b, rfl⟩ := Nat.exists_eq_succ_of_ne_zero (Nat.pos_iff_ne_zero.1 h2)
    rw [repoFindGo_succ, repoFindGo_succ]
    by_cases hc : gd.contains ([] : List (List Char)) = true
    · rw [if_pos hc, if_pos hc]
    · rw [if_neg hc, if_neg hc,
        if_pos (show ([] : List (List Char)).dropLast = [] from rfl),
        if_pos (show ([] : List (List Char)).dropLast = [] from rfl)]
  | succ n ih =>
    intro p f₁ f₂ hn h1 h2
    obtain ⟨a, rfl⟩ := Nat.exists_eq_succ_of_ne_zero
      (Nat.pos_iff_ne_zero.1 (Nat.lt_of_le_of_lt (Nat.zero_le _) h1))
    obtain ⟨b, rfl⟩ := Nat.exists_eq_succ_of_ne_zero
      (Nat.pos_iff_ne_zero.1 (Nat.lt_of_le_of_lt (Nat.zero_le _) h2))
    rw [repoFindGo_succ, repoFindGo_succ]
    by_cases hc : gd.contains p = true
    · rw [if_pos hc, if_pos hc]
    · rw [if_neg hc, if_neg hc]
      by_cases hd : p.dropLast = p
      · rw [if_pos hd, if_pos hd]
      · rw [if_neg hd, if_neg hd]
        have hne : p ≠ [] := by
          intro h
          exact hd (by rw [h]; rfl)
        have hpos : 1 ≤ p.length := by
          cases p with
          | nil => exact absurd rfl hne
          | cons _ _ => simp
        have hlen : p.dropLast.length = p.length - 1 := by
          simp [List.length_dropLast]
        exact ih p.dropLast a b (by omega) (by omega) (by omega)

/-- Ascending one level: when the start lacks the metadata directory,
`repo_find` from `q ++ [x]` equals `repo_find` from `q`. -/
theorem repoFind_step (gd : List (List (List Char))) (req : Bool)
    (q : List (List Char)) (x : List Char)
    (h : gd.contains (q ++ [x]) = false) :
    repoFind gd (q ++ [x]) req = repoFind gd q req := by
  unfold repoFind
  rw [show (q ++ [x]).length + 1 = (q.length + 1) + 1 by simp]
  rw [repoFindGo_succ, if_neg (ne_true_of_eq_false h), List.dropLast_concat,
    if_neg (by
      intro hh
      have := congrArg List.length hh
      simp at this)]

/-- `take` of an append with a single last element, below the bound. -/
theorem take_concat_le (q : List (List Char)) (x : List Char) (n : Nat)
    (h : n ≤ q.length) : (q ++ [x]).take n = q.take n := by
  rw [List.take_append_of_le_length h]

/-- C8.  Discovery ascends through canonical parents and terminates: the
fuelled worker is fuel-insensitive beyond the path depth; started three
levels below a repository root (with no metadata directory at the three
intermediate levels) it returns exactly that root; and with `required` it
fails with the `No git directory` error precisely when no ancestor of the
start (including itself and the filesystem root) contains the metadata
directory. -/
theorem repo_find_ascends (gd : List (List (List Char))) (req : Bool)
    (root : List (List Char)) (a b c : List Char)
    (h0 : gd.contains root = true)
    (h1 : gd.contains (root ++ [a]) = false)
    (h2 : gd.contains (root ++ [a, b]) = false)
    (h3 : gd.contains (root ++ [a, b, c]) = false) :
    (∀ p f, p.length < f → repoFindGo gd req f p = repoFind gd p req) ∧
    repoFind gd (root ++ [a, b, c]) req = .ok (some root) ∧
    (∀ p, repoFind gd p true = .error (.bail "No git directory") ↔
      ∀ n, gd.contains (p.take n) = false) := by
  refine ⟨?_, ?_, ?_⟩
  · intro p f hf
    exact repoFindGo_fuel_invariant gd req p.length p f (p.length + 1)
      (Nat.le_refl _) hf (Nat.lt_succ_self _)
  · have e3 : root ++ [a, b, c] = (root ++ [a, b]) ++ [c] := by simp
    have e2 : root ++ [a, b] = (root ++ [a]) ++ [b] := by simp
    rw [e3, repoFind_step gd req _ _ (by rw [← e3]; exact h3)]
    rw [e2, repoFind_step gd req _ _ (by rw [← e2]; exact h2)]
    rw [repoFind_step gd req _ _ h1]
    unfold repoFind
    rw [repoFindGo_succ, if_pos h0]
  · intro p
    induction p using List.reverseRecOn with
    | nil =>
      by_cases hc : gd.contains ([] : List (List Char)) = true
      · rw [show repoFind gd [] true = .ok (some []) by
          unfold repoFind
          rw [repoFindGo_succ, if_pos hc]]
        constructor
        · intro h
          cases h
        · intro h
          have h0' := h 0
          rw [List.take_nil] at h0'
          rw [h0'] at hc
          cases hc
      · rw [show repoFind gd [] true = .error (.bail "No git directory") by
          unfold repoFind
          rw [repoFindGo_succ, if_neg hc,
            if_pos (show ([] : List (List Char)).dropLast = [] from rfl),
            if_pos (rfl : true = true)]]
        constructor
        · intro _ n
          rw [List.take_nil]
          exact Bool.eq_false_iff.mpr hc
        · intro _
          rfl
    | append_singleton q x ih =>
      by_cases hc : gd.contains (q ++ [x]) = true
      · rw [show repoFind gd (q ++ [x]) true = .ok (some (q ++ [x])) by
          unfold repoFind
          rw [repoFindGo_succ, if_pos hc]]
        constructor
        · intro h
          cases h
        · intro h
          have hl := h (q ++ [x]).length
          rw [List.take_length] at hl
          rw [hl] at hc
          cases hc
      · have hcf : gd.contains (q ++ [x]) = false := Bool.eq_false_iff.mpr hc
        rw [repoFind_step gd true q x hcf, ih]
        constructor
        · intro h n
          by_cases hn : n ≤ q.length
          · rw [take_concat_le q x n hn]
            exact h n
          · rw [List.take_of_length_le (by simp; omega)]
            exact hcf
        · intro h n
          by_cases hn : n ≤ q.length
          · rw [← take_concat_le q x n hn]
            exact h n
          · rw [List.take_of_length_le (by omega)]
            have hq := h q.length
            rwa [take_concat_le q x q.length (Nat.le_refl _),
              List.take_length] at hq

/-- Witness for C8 at a concrete three-level-deep start. -/
theorem repo_find_ascends_witness :
    repoFind [["home".data, "u".data]]
      (["home".data, "u".data] ++ ["x".data, "y".data, "z".data]) true =
      .ok (some ["home".data, "u".data]) :=
  (repo_find_ascends [["home".data, "u".data]] true ["home".data, "u".data]
    "x".data "y".data "z".data (by decide) (by decide) (by decide)
    (by decide)).2.1

/-! ## KVLM round-trip lemmas (C3). -/

/-- Escaping never produces the empty string from a nonempty one. -/
theorem escNl_eq_nil_iff (v : List Char) : escNl v = [] ↔ v = [] := by
  cases v with
  | nil => simp [escNl]
  | cons c t =>
    by_cases hc : c = '\n' <;> simp [escNl, hc]

/-- Unescaping inverts escaping: `v.replace("\n", "\n ")` followed by
`replace("\n ", "\n")` is the identity. -/
theorem unescNl_escNl (v : List Char) : unescNl (escNl v) = v := by
  induction v with
  | nil => rfl
  | cons c t ih =>
    by_cases hc : c = '\n'
    · subst hc
      simp only [escNl, if_pos rfl]
      simp [unescNl, ih]
    · simp only [escNl, if_neg hc]
      cases hE : escNl t with
      | nil =>
        have ht : t = [] := (escNl_eq_nil_iff t).1 hE
        subst ht
        simp [unescNl]
      | cons d t'' =>
        rw [hE] at ih
        simp [unescNl, hc, ih]

/-- Escaping distributes over append. -/
theorem escNl_append (a b : List Char) :
    escNl (a ++ b) = escNl a ++ escNl b := by
  induction a with
  | nil => rfl
  | cons c t ih =>
    by_cases hc : c = '\n' <;> simp [escNl, hc, ih]

/-- A newline-free string escapes to itself. -/
theorem escNl_of_not_mem (v : List Char) (h : '\n' ∉ v) : escNl v = v := by
  induction v with
  | nil => rfl
  | cons c t ih =>
    have hc : c ≠ '\n' := fun hh => h (by rw [hh]; exact List.mem_cons_self _ _)
    have ht : '\n' ∉ t := fun hh => h (List.mem_cons_of_mem _ hh)
    simp [escNl, hc, ih ht]

/-- Escaping does not shorten a string. -/
theorem length_le_escNl (v : List Char) : v.length ≤ (escNl v).length := by
  induction v with
  | nil => simp
  | cons c t ih =>
    by_cases hc : c = '\n' <;> simp [escNl, hc] <;> omega

/-- Splitting a string at its first newline. -/
theorem exists_first_nl (v : List Char) (h : '\n' ∈ v) :
    ∃ l v', v = l ++ '\n' :: v' ∧ '\n' ∉ l := by
  induction v with
  | nil => cases h
  | cons c t ih =>
    by_cases hc : c = '\n'
    · exact ⟨[], t, by rw [hc]; rfl, by simp⟩
    · have ht : '\n' ∈ t := by
        rcases List.mem_cons.1 h with hh | hh
        · exact absurd hh.symm hc
        · exact hh
      obtain ⟨l, v', hv, hl⟩ := ih ht
      exact ⟨c :: l, v', by rw [hv]; rfl, by
        intro hm
        rcases List.mem_cons.1 hm with hh | hh
        · exact hc hh.symm
        · exact hl hh⟩

/-- A character that occurs in the list is found by the scan. -/
theorem findIdxGo_isSome_of_mem (a : Char) (l : List Char) (h : a ∈ l) :
    ∃ j, findIdxGo (· = a) l = some j := by
  induction l with
  | nil => cases h
  | cons c t ih =>
    by_cases hc : c = a
    · exact ⟨0, by simp [findIdxGo, hc]⟩
    · have ht : a ∈ t := by
        rcases List.mem_cons.1 h with hh | hh
        · exact absurd hh.symm hc
        · exact hh
      obtain ⟨j, hj⟩ := ih ht
      exact ⟨j + 1, by simp [findIdxGo, hc, hj]⟩

/-- Reading one character through a known suffix. -/
theorem charNth_of_drop (raw X : List Char) (e i : Nat)
    (h : raw.drop e = X) : charNth raw (e + i) = (X.get? i).getD NUL := by
  unfold charNth
  rw [← h]
  congr 1
  rw [List.get?_eq_getElem?, List.get?_eq_getElem?, List.getElem?_drop]

/-- The length equation of a known suffix. -/
theorem length_of_drop (raw X : List Char) (e : Nat) (h : raw.drop e = X) :
    raw.length - e = X.length := by
  rw [← h, List.length_drop]

/-- One unfolding step of the value-end loop. -/
theorem valueEnd_succ (raw : List Char) (f : Nat) (e : Nat) :
    valueEnd raw (f + 1) e =
      match findIdxFrom raw (e + 1) (· = '\n') with
      | none => some e
      | some v => if charNth raw (v + 1) ≠ ' ' then some v
          else valueEnd raw f v := rfl

/-- The loop step when the scan finds a newline. -/
theorem valueEnd_succ_some (raw : List Char) (f e v0 : Nat)
    (h : findIdxFrom raw (e + 1) (· = '\n') = some v0) :
    valueEnd raw (f + 1) e =
      if charNth raw (v0 + 1) ≠ ' ' then some v0 else valueEnd raw f v0 := by
  rw [valueEnd_succ, h]

/-- Element just past an append boundary. -/
theorem get?_append_cons_succ (A : List Char) (c : Char) (r : List Char) :
    (A ++ c :: r).get? (A.length + 1) = r.get? 0 := by
  rw [List.get?_eq_getElem?, List.getElem?_append_right (by omega)]
  cases r <;> simp

/-- The value-end loop of `kvlm_parse`, run against an escaped value: it
skips every continuation line of `escNl v` and stops exactly at the
terminating newline, provided the following line does not begin with a
space. -/
theorem valueEnd_loop (raw : List Char) :
    ∀ nNl (v pre rest : List Char) (e f : Nat),
      v.count '\n' = nNl →
      '\n' ∉ pre →
      raw.drop (e + 1) = pre ++ (escNl v ++ ('\n' :: rest)) →
      charNth rest 0 ≠ ' ' →
      nNl < f →
      valueEnd raw f e = some (e + 1 + pre.length + (escNl v).length) := by
  intro nNl
  induction nNl with
  | zero =>
    intro v pre rest e f hcount hpre hdrop hrest hf
    have hv : '\n' ∉ v := by
      rw [← List.count_pos_iff]
      omega
    have hEv : escNl v = v := escNl_of_not_mem v hv
    rw [hEv] at hdrop
    have hdrop' : raw.drop (e + 1) = (pre ++ v) ++ ('\n' :: rest) := by
      rw [hdrop, List.append_assoc]
    obtain ⟨f', rfl⟩ := Nat.exists_eq_succ_of_ne_zero (Nat.pos_iff_ne_zero.1 hf)
    have hfind : findIdxFrom raw (e + 1) (· = '\n') =
        some ((pre ++ v).length + (e + 1)) := by
      unfold findIdxFrom
      rw [hdrop', findIdxGo_eq_append '\n' (pre ++ v) ('\n' :: rest)
        (by
          intro ch hch
          rcases List.mem_append.1 hch with hh | hh
          · exact fun he => hpre (he ▸ hh)
          · exact fun he => hv (he ▸ hh))]
      simp [findIdxGo]
    have hch : charNth raw ((pre ++ v).length + (e + 1) + 1) = charNth rest 0 := by
      have he : (pre ++ v).length + (e + 1) + 1 = (e + 1) + ((pre ++ v).length + 1) := by
        omega
      rw [he, charNth_of_drop raw ((pre ++ v) ++ ('\n' :: rest)) (e + 1) _ hdrop']
      rw [get?_append_cons_succ]
      rfl
    rw [valueEnd_succ_some raw f' e _ hfind, if_pos (by rw [hch]; exact hrest)]
    congr 1
    rw [hEv]
    simp
    omega
  | succ n ih =>
    intro v pre rest e f hcount hpre hdrop hrest hf
    have hv : '\n' ∈ v := by
      rw [← List.count_pos_iff]
      omega
    obtain ⟨l, v', hvdec, hl⟩ := exists_first_nl v hv
    have hcount' : v'.count '\n' = n := by
      rw [hvdec] at hcount
      rw [List.count_append, List.count_cons] at hcount
      have hzero : l.count '\n' = 0 := List.count_eq_zero.2 hl
      simp [hzero] at hcount
      omega
    have hEv : escNl v = l ++ ('\n' :: ' ' :: escNl v') := by
      rw [hvdec, escNl_append, escNl_of_not_mem l hl]
      simp [escNl]
    rw [hEv] at hdrop
    have hdrop' : raw.drop (e + 1) =
        (pre ++ l) ++ ('\n' :: (' ' :: (escNl v' ++ ('\n' :: rest)))) := by
      rw [hdrop]
      simp
    obtain ⟨f', rfl⟩ := Nat.exists_eq_succ_of_ne_zero (Nat.pos_iff_ne_zero.1
      (Nat.lt_of_le_of_lt (Nat.zero_le _) hf))
    have hfind : findIdxFrom raw (e + 1) (· = '\n') =
        some ((pre ++ l).length + (e + 1)) := by
      unfold findIdxFrom
      rw [hdrop', findIdxGo_eq_append '\n' (pre ++ l)
        ('\n' :: (' ' :: (escNl v' ++ ('\n' :: rest))))
        (by
          intro ch hch
          rcases List.mem_append.1 hch with hh | hh
          · exact fun he => hpre (he ▸ hh)
          · exact fun he => hl (he ▸ hh))]
      simp [findIdxGo]
    have hch : charNth raw ((pre ++ l).length + (e + 1) + 1) = ' ' := by
      have he : (pre ++ l).length + (e + 1) + 1 =
          (e + 1) + ((pre ++ l).length + 1) := by
        omega
      rw [he, charNth_of_drop raw _ (e + 1) _ hdrop']
      rw [get?_append_cons_succ]
      rfl
    rw [valueEnd_succ_some raw f' e _ hfind, if_neg (by rw [hch]; simp)]
    have hsplit : ((pre ++ l) ++ ('\n' :: (' ' :: (escNl v' ++ ('\n' :: rest))))).drop
        ((pre ++ l).length + 1) = ' ' :: (escNl v' ++ ('\n' :: rest)) := by
      rw [show (pre ++ l).length + 1 = ((pre ++ l) ++ ['\n']).length by simp; omega]
      rw [show (pre ++ l) ++ ('\n' :: (' ' :: (escNl v' ++ ('\n' :: rest)))) =
        ((pre ++ l) ++ ['\n']) ++ (' ' :: (escNl v' ++ ('\n' :: rest))) by simp]
      rw [List.drop_left]
    have hdropnext : raw.drop ((pre ++ l).length + (e + 1) + 1) =
        [' '] ++ (escNl v' ++ ('\n' :: rest)) := by
      calc raw.drop ((pre ++ l).length + (e + 1) + 1)
          = (raw.drop (e + 1)).drop ((pre ++ l).length + 1) := by
            rw [List.drop_drop]
            congr 1
            omega
        _ = [' '] ++ (escNl v' ++ ('\n' :: rest)) := by
            rw [hdrop', hsplit]
            rfl
    have hrec := ih v' [' '] rest ((pre ++ l).length + (e + 1)) f' hcount'
      (by simp) (by
        rw [show (pre ++ l).length + (e + 1) + 1 =
          (pre ++ l).length + (e + 1) + 1 from rfl]
        exact hdropnext) hrest (by omega)
    rw [hrec]
    congr 1
    rw [hEv]
    simp
    omega

/-- `IndexMap::insert` of a fresh key appends the entry at the end. -/
theorem insertKV_append_of_none (dct : KVLM) (k : List Char)
    (vs : List (List Char)) (h : kvLookup dct k = none) :
    insertKV dct k vs = dct ++ [(k, vs)] := by
  induction dct with
  | nil => rfl
  | cons hd t ih =>
    obtain ⟨k', vs'⟩ := hd
    by_cases hk : k' = k
    · rw [hk] at h
      simp [kvLookup] at h
    · simp [kvLookup, hk] at h
      simp [insertKV, hk, ih h]

/-- `entry().or_insert().push()` of a fresh key appends a one-value
entry at the end. -/
theorem pushKV_append_of_none (dct : KVLM) (k v : List Char)
    (h : kvLookup dct k = none) :
    pushKV dct k v = dct ++ [(k, [v])] := by
  induction dct with
  | nil => rfl
  | cons hd t ih =>
    obtain ⟨k', vs'⟩ := hd
    by_cases hk : k' = k
    · rw [hk] at h
      simp [kvLookup] at h
    · simp [kvLookup, hk] at h
      simp [pushKV, hk, ih h]

/-- Unpacking the usable-key check. -/
theorem goodKey_spec (k : List Char) (h : goodKey k = true) :
    k ≠ [] ∧ ' ' ∉ k ∧ '\n' ∉ k := by
  simp [goodKey] at h
  obtain ⟨h1, h2, h3⟩ := h
  refine ⟨by simpa using h1, ?_, ?_⟩
  · intro hm
    exact absurd (by simpa using hm) h2
  · intro hm
    exact absurd (by simpa using hm) h3

/-- One line of the serialized key/value section. -/
theorem serLines_cons (k v : List Char) (ls : List (List Char × List Char)) :
    serLines ((k, v) :: ls) = serLine k v ++ serLines ls := by
  simp [serLines]

/-- The character following a serialized key/value section is never a
space: it is either the first character of the next key or the blank
line. -/
theorem serLines_head_ne_space (ls : List (List Char × List Char))
    (msg : List Char) (h : ∀ kv ∈ ls, goodKey kv.1 = true) :
    charNth (serLines ls ++ ('\n' :: msg)) 0 ≠ ' ' := by
  cases ls with
  | nil =>
    simp [serLines, charNth]
  | cons kv ls' =>
    obtain ⟨k, v⟩ := kv
    obtain ⟨hne, hsp, _⟩ := goodKey_spec k (h (k, v) (List.mem_cons_self _ _))
    obtain ⟨kh, kt, rfl⟩ := List.exists_cons_of_ne_nil hne
    rw [serLines_cons]
    have hkh : kh ≠ ' ' := fun hh => hsp (hh ▸ List.mem_cons_self _ _)
    simpa [serLine, charNth] using hkh

/-- Unfolding `kvlm_parse` when no space occurs after `start`. -/
theorem kvlmParseGo_succ_nospc (raw : List Char) (f s : Nat) (dct : KVLM)
    (hspc : findIdxFrom raw s (· = ' ') = none) :
    kvlmParseGo raw (f + 1) s dct =
      match sliceFrom raw (s + 1) with
      | none => .error (.panicked "byte index out of bounds")
      | some msg => .ok (insertKV dct [] [msg]) := by
  cases hnl : findIdxFrom raw s (· = '\n') with
  | none => simp only [kvlmParseGo, hspc, hnl]
  | some n => simp only [kvlmParseGo, hspc, hnl]

/-- Unfolding `kvlm_parse` when the newline precedes the space: the
message branch. -/
theorem kvlmParseGo_succ_msg (raw : List Char) (f s : Nat) (dct : KVLM)
    (s' n : Nat) (hspc : findIdxFrom raw s (· = ' ') = some s')
    (hnl : findIdxFrom raw s (· = '\n') = some n) (hlt : n < s') :
    kvlmParseGo raw (f + 1) s dct =
      match sliceFrom raw (s + 1) with
      | none => .error (.panicked "byte index out of bounds")
      | some msg => .ok (insertKV dct [] [msg]) := by
  simp only [kvlmParseGo, hspc, hnl, if_pos hlt]

/-- Unfolding `kvlm_parse` in the key/value branch. -/
theorem kvlmParseGo_succ_kv (raw : List Char) (f s : Nat) (dct : KVLM)
    (s' : Nat) (hspc : findIdxFrom raw s (· = ' ') = some s')
    (hnl : ∀ n, findIdxFrom raw s (· = '\n') = some n → ¬n < s') :
    kvlmParseGo raw (f + 1) s dct =
      match sliceIdx raw s s' with
      | none => .error (.panicked "byte index out of bounds")
      | some key =>
        match valueEnd raw (raw.length + 1) s with
        | none => .error (.panicked "loop fuel exhausted")
        | some e =>
          match sliceIdx raw (s' + 1) e with
          | none => .error (.panicked "byte index out of bounds")
          | some vsl => kvlmParseGo raw f (e + 1) (pushKV dct key (unescNl vsl)) := by
  cases hnl' : findIdxFrom raw s (· = '\n') with
  | none => simp only [kvlmParseGo, hspc, hnl']
  | some n => simp only [kvlmParseGo, hspc, hnl', if_neg (hnl n hnl')]

/-- Parsing a serialized key/value section followed by the blank line and
the message: each line pushes its `(key, value)` pair in order, and the
remainder past the blank line becomes the distinguished message entry. -/
theorem kvlmParseGo_serLines (raw msg : List Char) :
    ∀ (lines : List (List Char × List Char)) (s : Nat) (dct : KVLM) (f : Nat),
      (∀ kv ∈ lines, goodKey kv.1 = true) →
      kvLookup dct [] = none →
      raw.drop s = serLines lines ++ ('\n' :: msg) →
      lines.length < f →
      kvlmParseGo raw f s dct =
        .ok ((lines.foldl (fun d kv => pushKV d kv.1 kv.2) dct) ++
          [([], [msg])]) := by
  intro lines
  induction lines with
  | nil =>
    intro s dct f hgood hdct hdrop hf
    obtain ⟨f', rfl⟩ := Nat.exists_eq_succ_of_ne_zero (Nat.pos_iff_ne_zero.1 hf)
    rw [show serLines [] ++ ('\n' :: msg) = '\n' :: msg from rfl] at hdrop
    have hlen : raw.length - s = ('\n' :: msg).length :=
      length_of_drop raw _ s hdrop
    simp only [List.length_cons] at hlen
    have hnl : findIdxFrom raw s (· = '\n') = some s := by
      unfold findIdxFrom
      rw [hdrop]
      simp [findIdxGo]
    have hslice : sliceFrom raw (s + 1) = some msg := by
      unfold sliceFrom
      rw [if_pos (by omega)]
      congr 1
      calc raw.drop (s + 1) = (raw.drop s).drop 1 := by
            rw [List.drop_drop]
        _ = msg := by
            rw [hdrop]
            rfl
    cases hsp : findIdxGo (· = ' ') msg with
    | none =>
      have hspc : findIdxFrom raw s (· = ' ') = none := by
        unfold findIdxFrom
        rw [hdrop]
        simp [findIdxGo, hsp]
      rw [kvlmParseGo_succ_nospc raw f' s dct hspc]
      simp only [hslice, insertKV_append_of_none dct [] [msg] hdct]
      rfl
    | some j =>
      have hspc : findIdxFrom raw s (· = ' ') = some (j + 1 + s) := by
        unfold findIdxFrom
        rw [hdrop]
        simp [findIdxGo, hsp]
      rw [kvlmParseGo_succ_msg raw f' s dct (j + 1 + s) s hspc hnl (by omega)]
      simp only [hslice, insertKV_append_of_none dct [] [msg] hdct]
      rfl
  | cons kv ls ih =>
    obtain ⟨k, v⟩ := kv
    intro s dct f hgood hdct hdrop hf
    obtain ⟨f', rfl⟩ := Nat.exists_eq_succ_of_ne_zero (Nat.pos_iff_ne_zero.1
      (Nat.lt_of_le_of_lt (Nat.zero_le _) hf))
    obtain ⟨hkne, hksp, hknl⟩ := goodKey_spec k (hgood (k, v)
      (List.mem_cons_self _ _))
    have hgood' : ∀ kv' ∈ ls, goodKey kv'.1 = true := fun kv' h =>
      hgood kv' (List.mem_cons_of_mem _ h)
    have hkpos : 0 < k.length := List.length_pos.2 hkne
    have hdropN : raw.drop s =
        k ++ (' ' :: (escNl v ++ ('\n' :: (serLines ls ++ ('\n' :: msg))))) := by
      rw [hdrop, serLines_cons]
      simp [serLine]
    have hlen : raw.length - s =
        k.length + 1 + (escNl v).length + 1 +
          (serLines ls ++ ('\n' :: msg)).length := by
      have h0 := length_of_drop raw _ s hdropN
      simp only [List.length_append, List.length_cons] at h0 ⊢
      omega
    have hspc : findIdxFrom raw s (· = ' ') = some (k.length + s) := by
      unfold findIdxFrom
      rw [hdropN, findIdxGo_eq_append ' ' k _
        (fun c hc he => hksp (he ▸ hc))]
      simp [findIdxGo]
    have hassoc : k ++ (' ' :: (escNl v ++ ('\n' :: (serLines ls ++ ('\n' :: msg))))) =
        (k ++ [' ']) ++ (escNl v ++ ('\n' :: (serLines ls ++ ('\n' :: msg)))) := by
      simp
    obtain ⟨j₀, hj₀⟩ := findIdxGo_isSome_of_mem '\n'
      (escNl v ++ ('\n' :: (serLines ls ++ ('\n' :: msg))))
      (List.mem_append.2 (Or.inr (List.mem_cons_self _ _)))
    have hnl : findIdxFrom raw s (· = '\n') =
        some (j₀ + (k.length + 1) + s) := by
      unfold findIdxFrom
      rw [hdropN, hassoc, findIdxGo_eq_append '\n' (k ++ [' ']) _
        (by
          intro c hc he
          rcases List.mem_append.1 hc with hh | hh
          · exact hknl (he ▸ hh)
          · have hc' : c = ' ' := List.mem_singleton.1 hh
            rw [hc'] at he
            exact absurd he (by decide))]
      rw [hj₀]
      simp
    have huniq : ∀ n, findIdxFrom raw s (· = '\n') = some n →
        ¬n < k.length + s := by
      intro n hn
      rw [hnl] at hn
      injection hn with hh
      omega
    have hkey : sliceIdx raw s (k.length + s) = some k := by
      unfold sliceIdx
      rw [if_pos ⟨by omega, by omega⟩]
      rw [show k.length + s - s = k.length by omega, hdropN]
      exact congrArg some (List.take_left k _)
    have hdrop1 : raw.drop (s + 1) =
        (k.drop 1 ++ [' ']) ++
          (escNl v ++ ('\n' :: (serLines ls ++ ('\n' :: msg)))) := by
      calc raw.drop (s + 1) = (raw.drop s).drop 1 := by
            rw [List.drop_drop]
        _ = (k ++ (' ' :: (escNl v ++ ('\n' :: (serLines ls ++ ('\n' :: msg)))))).drop 1 := by
            rw [hdropN]
        _ = k.drop 1 ++ (' ' :: (escNl v ++ ('\n' :: (serLines ls ++ ('\n' :: msg))))) := by
            rw [List.drop_append_of_le_length (by omega)]
        _ = (k.drop 1 ++ [' ']) ++
              (escNl v ++ ('\n' :: (serLines ls ++ ('\n' :: msg)))) := by
            simp
    have hcount : v.count '\n' < raw.length + 1 := by
      have hc1 := List.count_le_length '\n' v
      have hc2 := length_le_escNl v
      omega
    have hval := valueEnd_loop raw (v.count '\n') v (k.drop 1 ++ [' '])
      (serLines ls ++ ('\n' :: msg)) s (raw.length + 1) rfl
      (by
        intro hm
        rcases List.mem_append.1 hm with hh | hh
        · exact hknl (List.mem_of_mem_drop hh)
        · exact absurd (List.mem_singleton.1 hh) (by decide))
      hdrop1 (serLines_head_ne_space ls msg hgood') hcount
    have hvE : (k.drop 1 ++ [' ']).length = k.length := by
      simp
      omega
    rw [hvE] at hval
    have hvsl : sliceIdx raw ((k.length + s) + 1)
        (s + 1 + k.length + (escNl v).length) = some (escNl v) := by
      unfold sliceIdx
      rw [if_pos ⟨by omega, by omega⟩]
      congr 1
      calc (raw.drop (k.length + s + 1)).take
            (s + 1 + k.length + (escNl v).length - (k.length + s + 1))
          = (raw.drop (k.length + s + 1)).take (escNl v).length := by
            congr 1
            omega
        _ = (escNl v ++ ('\n' :: (serLines ls ++ ('\n' :: msg)))).take
              (escNl v).length := by
            congr 1
            calc raw.drop (k.length + s + 1)
                = (raw.drop s).drop (k.length + 1) := by
                  rw [List.drop_drop]
                  congr 1
                  omega
              _ = (k ++ (' ' :: (escNl v ++ ('\n' :: (serLines ls ++ ('\n' :: msg)))))).drop
                    (k.length + 1) := by rw [hdropN]
              _ = escNl v ++ ('\n' :: (serLines ls ++ ('\n' :: msg))) := by
                  rw [hassoc, show k.length + 1 = (k ++ [' ']).length by simp]
                  rw [List.drop_left]
        _ = escNl v := List.take_left _ _
    have hdropnext : raw.drop ((s + 1 + k.length + (escNl v).length) + 1) =
        serLines ls ++ ('\n' :: msg) := by
      calc raw.drop ((s + 1 + k.length + (escNl v).length) + 1)
          = (raw.drop s).drop (k.length + 1 + (escNl v).length + 1) := by
            rw [List.drop_drop]
            congr 1
            omega
        _ = (k ++ (' ' :: (escNl v ++ ('\n' :: (serLines ls ++ ('\n' :: msg)))))).drop
              (k.length + 1 + (escNl v).length + 1) := by rw [hdropN]
        _ = serLines ls ++ ('\n' :: msg) := by
            rw [show k ++ (' ' :: (escNl v ++ ('\n' :: (serLines ls ++ ('\n' :: msg))))) =
              (k ++ (' ' :: escNl v) ++ ['\n']) ++ (serLines ls ++ ('\n' :: msg)) by simp]
            rw [show k.length + 1 + (escNl v).length + 1 =
              (k ++ (' ' :: escNl v) ++ ['\n']).length by simp; omega]
            rw [List.drop_left]
    have hdct' : kvLookup (pushKV dct k v) [] = none := by
      rw [kvLookup_pushKV_other dct k v [] (fun he => hkne he.symm)]
      exact hdct
    rw [kvlmParseGo_succ_kv raw f' s dct (k.length + s) hspc huniq]
    simp only [hkey, hval, hvsl, unescNl_escNl]
    rw [ih ((s + 1 + k.length + (escNl v).length) + 1) (pushKV dct k v) f'
      hgood' hdct' hdropnext (by
        simp only [List.length_cons] at hf
        omega)]
    rfl

/-- Lookup skips a prefix that does not hold the key. -/
theorem kvLookup_append_of_none (A B : KVLM) (k : List Char)
    (h : kvLookup A k = none) : kvLookup (A ++ B) k = kvLookup B k := by
  induction A with
  | nil => rfl
  | cons hd t ih =>
    obtain ⟨k', vs'⟩ := hd
    by_cases hk : k' = k
    · rw [hk] at h
      simp [kvLookup] at h
    · simp [kvLookup, hk] at h ⊢
      exact ih h

/-- A key different from every key of the map is absent. -/
theorem kvLookup_none_of_keys (A : KVLM) (k : List Char)
    (h : ∀ kv ∈ A, kv.1 ≠ k) : kvLookup A k = none := by
  induction A with
  | nil => rfl
  | cons hd t ih =>
    obtain ⟨k', vs'⟩ := hd
    have hk : k' ≠ k := h (k', vs') (List.mem_cons_self _ _)
    simp [kvLookup, hk]
    exact ih (fun kv hkv => h kv (List.mem_cons_of_mem _ hkv))

/-- The serialized key/value section of a map ending in the message entry
is exactly the line list of its key/value part. -/
theorem kvlmSerializePairs_eq_serLines (pairs : KVLM)
    (vs : List (List Char)) (h : ∀ kv ∈ pairs, kv.1 ≠ []) :
    kvlmSerializePairs (pairs ++ [([], vs)]) = serLines (linesOf pairs) := by
  induction pairs with
  | nil => rfl
  | cons hd rest ih =>
    obtain ⟨k, vs'⟩ := hd
    have hk : k ≠ [] := h (k, vs') (List.mem_cons_self _ _)
    have ih' := ih (fun kv hkv => h kv (List.mem_cons_of_mem _ hkv))
    simp only [kvlmSerializePairs, List.cons_append, List.map_cons,
      List.flatten_cons, if_neg hk] at ih' ⊢
    rw [show linesOf ((k, vs') :: rest) =
      (vs'.map (fun v => (k, v))) ++ linesOf rest by simp [linesOf]]
    rw [show serLines ((vs'.map (fun v => (k, v))) ++ linesOf rest) =
      serLines (vs'.map (fun v => (k, v))) ++ serLines (linesOf rest) by
        simp [serLines]]
    rw [← ih']
    congr 1
    simp only [serLines, List.map_map]
    rfl

/-- Pushing onto the trailing entry appends to its value list. -/
theorem pushKV_last (dct₀ : KVLM) (k : List Char)
    (acc : List (List Char)) (v : List Char)
    (h : kvLookup dct₀ k = none) :
    pushKV (dct₀ ++ [(k, acc)]) k v = dct₀ ++ [(k, acc ++ [v])] := by
  induction dct₀ with
  | nil => simp [pushKV]
  | cons hd t ih =>
    obtain ⟨k', vs'⟩ := hd
    by_cases hk : k' = k
    · rw [hk] at h
      simp [kvLookup] at h
    · simp [kvLookup, hk] at h
      simp [pushKV, hk, ih h]

/-- Folding the lines of one key over the accumulator extends that key's
trailing entry with all its values in order. -/
theorem foldl_push_values (k : List Char) :
    ∀ (vs : List (List Char)) (dct₀ : KVLM) (acc : List (List Char)),
      kvLookup dct₀ k = none →
      ((vs.map (fun v => (k, v))).foldl
        (fun d kv => pushKV d kv.1 kv.2) (dct₀ ++ [(k, acc)])) =
        dct₀ ++ [(k, acc ++ vs)] := by
  intro vs
  induction vs with
  | nil => intro dct₀ acc h; simp
  | cons v vs' ih =>
    intro dct₀ acc h
    simp only [List.map_cons, List.foldl_cons]
    rw [pushKV_last dct₀ k acc v h, ih dct₀ (acc ++ [v]) h]
    simp

/-- Folding all serialized lines over an accumulator disjoint from the
section's keys rebuilds the key/value section at the end. -/
theorem foldl_push_linesOf :
    ∀ (pairs : KVLM) (dct : KVLM),
      (∀ kv ∈ pairs, kvLookup dct kv.1 = none) →
      nodupKeys (pairs.map Prod.fst) = true →
      (∀ kv ∈ pairs, kv.2 ≠ []) →
      ((linesOf pairs).foldl (fun d kv => pushKV d kv.1 kv.2) dct) =
        dct ++ pairs := by
  intro pairs
  induction pairs with
  | nil => intro dct _ _ _; simp [linesOf]
  | cons hd rest ih =>
    intro dct hdisj hnodup hvs
    obtain ⟨k, vs⟩ := hd
    have hvne : vs ≠ [] := hvs (k, vs) (List.mem_cons_self _ _)
    obtain ⟨v₀, vs'', rfl⟩ := List.exists_cons_of_ne_nil hvne
    have hlk : kvLookup dct k = none := hdisj (k, v₀ :: vs'')
      (List.mem_cons_self _ _)
    simp only [nodupKeys, List.map_cons] at hnodup
    have hand := of_decide_eq_true hnodup
    have hknotin : ¬(k ∈ rest.map Prod.fst) := hand.1
    have hnodup' : nodupKeys (rest.map Prod.fst) = true := hand.2
    have hstep : linesOf ((k, v₀ :: vs'') :: rest) =
        ((v₀ :: vs'').map (fun v => (k, v))) ++ linesOf rest := by
      simp [linesOf]
    rw [hstep, List.foldl_append]
    have hfirst : ((v₀ :: vs'').map (fun v => (k, v))).foldl
        (fun d kv => pushKV d kv.1 kv.2) dct =
        dct ++ [(k, v₀ :: vs'')] := by
      simp only [List.map_cons, List.foldl_cons]
      rw [pushKV_append_of_none dct k v₀ hlk,
        foldl_push_values k vs'' dct [v₀] hlk]
      rfl
    rw [hfirst]
    rw [ih (dct ++ [(k, v₀ :: vs'')])
      (by
        intro kv hkv
        have h1 : kvLookup dct kv.1 = none :=
          hdisj kv (List.mem_cons_of_mem _ hkv)
        have h2 : kv.1 ≠ k := by
          intro he
          exact hknotin (he ▸ List.mem_map_of_mem Prod.fst hkv)
        rw [kvLookup_append_of_none dct _ _ h1]
        have h2' : ¬(k = kv.1) := fun hh => h2 hh.symm
        simp [kvLookup, h2'])
      hnodup' (fun kv hkv => hvs kv (List.mem_cons_of_mem _ hkv))]
    simp

/-- The keys of the flattened line list are the section's keys. -/
theorem linesOf_keys_good (pairs : KVLM)
    (h : ∀ kv ∈ pairs, goodKey kv.1 = true) :
    ∀ kv ∈ linesOf pairs, goodKey kv.1 = true := by
  induction pairs with
  | nil => intro kv hkv; simp [linesOf] at hkv
  | cons hd rest ih =>
    obtain ⟨k, vs⟩ := hd
    intro kv hkv
    have hsplit : linesOf ((k, vs) :: rest) =
        (vs.map (fun v => (k, v))) ++ linesOf rest := by
      simp [linesOf]
    rw [hsplit] at hkv
    rcases List.mem_append.1 hkv with hh | hh
    · obtain ⟨v, _, rfl⟩ := List.mem_map.1 hh
      exact h (k, vs) (List.mem_cons_self _ _)
    · exact ih (fun kv' hkv' => h kv' (List.mem_cons_of_mem _ hkv')) kv hh

/-- Each serialized line holds at least one character. -/
theorem length_le_serLines (lines : List (List Char × List Char)) :
    lines.length ≤ (serLines lines).length := by
  induction lines with
  | nil => simp [serLines]
  | cons hd rest ih =>
    obtain ⟨k, v⟩ := hd
    rw [serLines_cons]
    simp [serLine]
    omega

/-- C3 counterexample.  The round-trip law fails for well-formed maps in
the claim's sense (ordered keys, one-or-more values per key, message entry
present): a key containing a space is re-parsed as a different map, and a
message entry with two values loses its second value. -/
theorem kvlm_roundtrip_cex :
    kvlmSerialize [("a b".data, ["c".data]), ([], ["m".data])] =
      .ok ("a b c\n\nm").data ∧
    kvlmParse ("a b c\n\nm").data =
      .ok [("a".data, ["b c".data]), ([], ["m".data])] ∧
    ([("a".data, ["b c".data]), ([], ["m".data])] : KVLM) ≠
      [("a b".data, ["c".data]), ([], ["m".data])] ∧
    kvlmSerialize [("k".data, ["v".data]), ([], ["m1".data, "m2".data])] =
      .ok ("k v\n\nm1").data ∧
    kvlmParse ("k v\n\nm1").data =
      .ok [("k".data, ["v".data]), ([], ["m1".data])] ∧
    ([("k".data, ["v".data]), ([], ["m1".data])] : KVLM) ≠
      [("k".data, ["v".data]), ([], ["m1".data, "m2".data])] := by
  refine ⟨by decide, by decide, by decide, by decide, by decide, by decide⟩

/-- C3 amended.  KVLM encoding and decoding are mutually inverse on maps
whose non-message keys are nonempty, pairwise distinct and free of spaces
and newlines, whose every key carries at least one value, and whose
message entry (key `""`, exactly one value) comes last:
`kvlm_parse (kvlm_serialize m) = m`, and every byte string `b` produced by
`kvlm_serialize` from such a map satisfies
`kvlm_serialize (kvlm_parse b) = b` — in particular values with embedded
newlines survive the continuation-line escaping round-trip exactly. -/
theorem kvlm_roundtrip (m : KVLM) (h : wfKvlm m = true) :
    ∃ b, kvlmSerialize m = .ok b ∧ kvlmParse b = .ok m ∧
      (∀ m', kvlmParse b = .ok m' → kvlmSerialize m' = .ok b) := by
  induction m using List.reverseRecOn with
  | nil => simp [wfKvlm] at h
  | append_singleton pairs last _ =>
    obtain ⟨k0, vs0⟩ := last
    unfold wfKvlm at h
    rw [List.getLast?_concat] at h
    match hk0 : k0, hvs0 : vs0 with
    | kh :: kt, _ => simp at h
    | [], [] => simp at h
    | [], msg :: m2 :: mrest => simp at h
    | [], [msg] =>
    rw [List.dropLast_concat] at h
    have hall : ∀ kv ∈ pairs, goodKey kv.1 = true ∧ kv.2 ≠ [] := by
      intro kv hkv
      have h1 := of_decide_eq_true h
      have h2 := h1.1
      rw [List.all_eq_true] at h2
      have h3 := of_decide_eq_true (h2 kv hkv)
      exact ⟨h3.1, by simpa using h3.2⟩
    have hnodup : nodupKeys (pairs.map Prod.fst) = true :=
      (of_decide_eq_true h).2
    have hkeysne : ∀ kv ∈ pairs, kv.1 ≠ [] := by
      intro kv hkv
      exact (goodKey_spec kv.1 (hall kv hkv).1).1
    have hlkpairs : kvLookup pairs [] = none :=
      kvLookup_none_of_keys pairs [] hkeysne
    have hser : kvlmSerialize (pairs ++ [([], [msg])]) =
        .ok (serLines (linesOf pairs) ++ ('\n' :: msg)) := by
      unfold kvlmSerialize
      rw [kvLookup_append_of_none pairs _ _ hlkpairs]
      rw [show kvLookup [([], [msg])] [] = some [msg] by simp [kvLookup]]
      rw [kvlmSerializePairs_eq_serLines pairs [msg] hkeysne]
    have hparse : kvlmParse (serLines (linesOf pairs) ++ ('\n' :: msg)) =
        .ok (pairs ++ [([], [msg])]) := by
      unfold kvlmParse
      rw [kvlmParseGo_serLines (serLines (linesOf pairs) ++ ('\n' :: msg))
        msg (linesOf pairs) 0 []
        ((serLines (linesOf pairs) ++ ('\n' :: msg)).length + 1)
        (linesOf_keys_good pairs (fun kv hkv => (hall kv hkv).1))
        rfl (by rw [List.drop_zero])
        (by
          have h1 := length_le_serLines (linesOf pairs)
          simp only [List.length_append, List.length_cons]
          omega)]
      rw [foldl_push_linesOf pairs []
        (fun kv _ => rfl) hnodup (fun kv hkv => (hall kv hkv).2)]
      rfl
    refine ⟨serLines (linesOf pairs) ++ ('\n' :: msg), hser, hparse, ?_⟩
    intro m' hm'
    rw [hparse] at hm'
    injection hm' with hm''
    rw [← hm'']
    exact hser

/-- Witness for the amended C3 at a concrete map whose value contains an
embedded newline. -/
theorem kvlm_roundtrip_witness :
    wfKvlm [("k".data, ["a\nb".data]), ([], ["msg".data])] = true ∧
    ∃ b, kvlmSerialize [("k".data, ["a\nb".data]), ([], ["msg".data])] =
        .ok b ∧
      kvlmParse b = .ok [("k".data, ["a\nb".data]), ([], ["msg".data])] ∧
      (∀ m', kvlmParse b = .ok m' →
        kvlmSerialize m' = .ok b) :=
  ⟨by decide, kvlm_roundtrip [("k".data, ["a\nb".data]), ([], ["msg".data])]
    (by decide)⟩
